import Mathlib

/-! Formal development for the EMD-UniFrac hotspot module (unifrac/longitudinal.py).

The Python module computes an Earth-Mover's-Distance formulation of the
UniFrac distance between two abundance vectors placed on a rooted tree with
rational branch lengths, decomposes the distance into per-edge signed
differential abundances, and selects the edge of maximal magnitude as the
"hotspot".  This file is a shallow embedding of that module: trees are rose
trees carrying a node id and a branch length, numpy floats are modelled by
rationals (with `Option` marking non-finite results of division by zero),
Python dicts keyed by node id are modelled by total functions `Nat -> Rat`
(for the transient accumulator, whose absent keys default to 0) and by
insertion-ordered association lists (for the differential-abundance map). -/

/-- A rooted tree as produced by `skbio.TreeNode` after `assign_ids`:
each node carries its integer id, the length of the edge to its parent
(`node.length`; the root's own value is never read by the algorithm), and an
ordered list of children. -/
inductive PTree where
  | node (nid : Nat) (len : ℚ) (children : List PTree)

def PTree.nid : PTree → Nat
  | .node i _ _ => i

def PTree.len : PTree → ℚ
  | .node _ l _ => l

def PTree.children : PTree → List PTree
  | .node _ _ cs => cs

@[simp] theorem PTree.nid_node (i : Nat) (l : ℚ) (cs : List PTree) :
    (PTree.node i l cs).nid = i := rfl

@[simp] theorem PTree.len_node (i : Nat) (l : ℚ) (cs : List PTree) :
    (PTree.node i l cs).len = l := rfl

@[simp] theorem PTree.children_node (i : Nat) (l : ℚ) (cs : List PTree) :
    (PTree.node i l cs).children = cs := rfl

/-- All node ids of a forest, in postorder (children before parent,
siblings left to right) — the order of `TreeNode.postorder`. -/
def idsL : List PTree → List Nat
  | [] => []
  | .node i _ cs :: rest => idsL cs ++ i :: idsL rest

/-- The tip (leaf) ids of a forest, in postorder. -/
def tipsL : List PTree → List Nat
  | [] => []
  | .node i _ [] :: rest => i :: tipsL rest
  | .node _ _ (c :: cs) :: rest => tipsL (c :: cs) ++ tipsL rest

/-- All subtrees of a forest (one per node), in postorder. -/
def subtreesL : List PTree → List PTree
  | [] => []
  | .node i l cs :: rest => subtreesL cs ++ .node i l cs :: subtreesL rest

/-- One traversal row per non-root node: (node id, node length, parent id).
This is exactly the data `_emd_unifrac_single_pair` reads off each node of
`tree.postorder(include_self=False)`. -/
abbrev Row : Type := Nat × ℚ × Nat

/-- The rows of `postorder(include_self=False)` for a forest hanging below a
parent with id `p`. -/
def rowsList : Nat → List PTree → List Row
  | _, [] => []
  | p, .node i l cs :: rest => rowsList i cs ++ (i, l, p) :: rowsList p rest

/-- The sum of all branch lengths below the root, excluding the root's own:
`TreeNode.descending_branch_length()` called on the root. -/
def totalBranchLength (t : PTree) : ℚ := ((subtreesL t.children).map PTree.len).sum

/-- Pointwise insertion into a Python dict modelled as a total function
(absent keys read as the default 0, as in `partial_sums.pop(id, 0)` and
`partial_sums.get(id, 0)`). -/
def dinsertF (f : Nat → ℚ) (k : Nat) (v : ℚ) : Nat → ℚ :=
  fun x => if x = k then v else f x

/-- The seed accumulator `dict(zip(ids, sample_1_weights - sample_2_weights))`:
later duplicate keys overwrite earlier ones, and zipping truncates to the
shorter list, exactly as in Python. -/
def dictZip (ids : List Nat) (vals : List ℚ) : Nat → ℚ :=
  (List.zip ids vals).foldl (fun f kv => dinsertF f kv.1 kv.2) (fun _ => 0)

/-- Insertion into a Python dict modelled as an insertion-ordered association
list: an existing key keeps its position and gets the new value, a new key is
appended at the end. -/
def dictSet (A : List (Nat × ℚ)) (k : Nat) (v : ℚ) : List (Nat × ℚ) :=
  if A.any (fun e => e.1 == k) then A.map (fun e => if e.1 == k then (k, v) else e)
  else A ++ [(k, v)]

/-- The loop state of `_emd_unifrac_single_pair`: the running distance, the
insertion-ordered differential-abundance dict, and the partial-sum
accumulator dict. -/
structure EmdState where
  distance : ℚ
  diffAbund : List (Nat × ℚ)
  psums : Nat → ℚ

/-- One iteration of the loop body of `_emd_unifrac_single_pair` for the row
(node id, node length, parent id): pop the node's accumulated value `val`
(default 0), add it into the parent's entry, record `length * val` in the
differential-abundance dict when `val` is nonzero, and add `length * |val|`
to the distance. -/
def emdStep (s : EmdState) (r : Row) : EmdState :=
  let val := s.psums r.1
  let popped : Nat → ℚ := fun k => if k = r.1 then 0 else s.psums k
  { distance := s.distance + r.2.1 * |val|
    diffAbund := if val = 0 then s.diffAbund else dictSet s.diffAbund r.1 (r.2.1 * val)
    psums := dinsertF popped r.2.2 (popped r.2.2 + val) }

/-- The final loop state of `_emd_unifrac_single_pair tree ids w1 w2`. -/
def emdFinalState (t : PTree) (ids : List Nat) (w1 w2 : List ℚ) : EmdState :=
  List.foldl emdStep
    { distance := 0
      diffAbund := []
      psums := dictZip ids (List.zipWith (fun a b => a - b) w1 w2) }
    (rowsList t.nid t.children)

/-- The embedding of `_emd_unifrac_single_pair`: returns the UniFrac distance
and the differential-abundance map. -/
def emd_unifrac_single_pair (t : PTree) (ids : List Nat) (w1 w2 : List ℚ) :
    ℚ × List (Nat × ℚ) :=
  ((emdFinalState t ids w1 w2).distance, (emdFinalState t ids w1 w2).diffAbund)

/-- One iteration of the maximum scan in `_calculate_hotspot`: the running
pair is (`max_abs_diff_abund`, `max_change_node_id`), the comparison is the
strict `abs_diff_abund > max_abs_diff_abund`. -/
def selStep (acc : ℚ × Option Nat) (e : Nat × ℚ) : ℚ × Option Nat :=
  if acc.1 < |e.2| then (|e.2|, some e.1) else acc

/-- The maximum scan of `_calculate_hotspot`, started from
`max_abs_diff_abund = -1` with `max_change_node_id` unassigned.  The result
`none` models the state in which `max_change_node_id` was never assigned, so
that the following `tree.find_by_id(max_change_node_id)` raises an
`UnboundLocalError`. -/
def selectMax (l : List (Nat × ℚ)) : Option Nat :=
  (l.foldl selStep (-1, none)).2

/-- The node id selected by `_calculate_hotspot` after the EMD traversal
(`none` models the unbound-variable error on an empty map). -/
def calculate_hotspot_id (t : PTree) (ids : List Nat) (w1 w2 : List ℚ) : Option Nat :=
  selectMax (emd_unifrac_single_pair t ids w1 w2).2

/-- The module-level set `available_metrics`. -/
def available_metrics : List String := ["weighted_unifrac", "unweighted_unifrac"]

/-- A numpy float64 value: `some q` is the finite value `q`, `none` is a
non-finite value (NaN or an infinity), which is what numpy produces instead
of raising when dividing by a zero scalar. -/
abbrev NpF : Type := Option ℚ

/-- Scalar division as performed elementwise by numpy: a zero divisor yields
a non-finite value (with a RuntimeWarning) rather than an error. -/
def npDiv (x s : ℚ) : NpF :=
  if s = 0 then none else some (x / s)

/-- The embedding of `_weight_adjuster`.  Errors carry the `ValueError`
message text.  The unweighted branch divides the presence/absence indicator
by `descending_branch_length`; the weighted branch divides each vector by
its scalar sum, which for a zero sum silently produces non-finite entries. -/
def weight_adjuster (sample_1 sample_2 : List ℚ) (tree : Option PTree)
    (method : String) : Except String (List NpF × List NpF) :=
  if method = "unweighted_unifrac" then
    match tree with
    | none => .error "Unweighted weight adjustment requires a tree."
    | some t =>
      .ok (sample_1.map (fun x => npDiv (if 0 < x then 1 else 0) (totalBranchLength t)),
           sample_2.map (fun x => npDiv (if 0 < x then 1 else 0) (totalBranchLength t)))
  else if method = "weighted_unifrac" then
    .ok (sample_1.map (fun x => npDiv x sample_1.sum),
         sample_2.map (fun x => npDiv x sample_2.sum))
  else
    .error ("method: " ++ method ++ " not recognized.")

/-- The tree of the worked example from the EMDUniFrac paper,
`((1:0.1,2:0.1)5:0.2,(3:0.1,4:0.1)6:0.2)root;`, with ids assigned by
postorder traversal: tips 1,2 get ids 0,1; internal node 5 gets id 2;
tips 3,4 get ids 3,4; internal node 6 gets id 5; the root gets id 6. -/
def paperTree : PTree :=
  .node 6 0
    [.node 2 (2/10) [.node 0 (1/10) [], .node 1 (1/10) []],
     .node 5 (2/10) [.node 3 (1/10) [], .node 4 (1/10) []]]

/-- The per-edge contribution named by the specification: branch length times
the absolute value of (the sum of seeded weights over the tips strictly below
the node, plus any weight seeded directly at the node). -/
def claimTerm (f : Nat → ℚ) (t : PTree) : ℚ :=
  t.len * |((tipsL t.children).map f).sum + f t.nid|

/-- Structural sum, over every node of a forest, of branch length times the
absolute subtree seed sum (the subtree sum taken over all node ids). -/
def edgeSumL (f : Nat → ℚ) : List PTree → ℚ
  | [] => 0
  | .node i l cs :: rest =>
      edgeSumL f cs + l * |((idsL cs).map f).sum + f i| + edgeSumL f rest

/-- Structural sum, over every node of a forest, of `claimTerm`. -/
def claimSumL (f : Nat → ℚ) : List PTree → ℚ
  | [] => 0
  | .node i l cs :: rest =>
      claimSumL f cs + l * |((tipsL cs).map f).sum + f i| + claimSumL f rest

/-- A small concrete tree used by the closed witness instances: two tips of
ids 0 and 1 (branch length 1 each) under a root of id 2. -/
def twoTipTree : PTree := .node 2 0 [.node 0 1 [], .node 1 1 []]

/-- A tree as parsed from Newick text, before id assignment: each node has a
name (tips are named; internal node names may be empty), a branch length and
ordered children. -/
inductive NTree where
  | node (name : String) (len : ℚ) (children : List NTree)

def NTree.name : NTree → String
  | .node nm _ _ => nm

def NTree.len : NTree → ℚ
  | .node _ l _ => l

def NTree.children : NTree → List NTree
  | .node _ _ cs => cs

/-- The tip names of a forest of named trees, in postorder. -/
def ntipNames : List NTree → List String
  | [] => []
  | .node nm _ [] :: rest => nm :: ntipNames rest
  | .node _ _ (c :: cs) :: rest => ntipNames (c :: cs) ++ ntipNames rest

/-- Modelled from the spec: the skbio collaborator `TreeNode.shear` (whose
code is not part of this repository).  Spec section 4.6 step 1: restrict the
tree to the subtree induced by the kept tip names; tips not kept are removed,
internal nodes that lose all tips disappear, and an internal node left with a
single child is collapsed into that child with the branch lengths added. -/
def shearL (keep : List String) : List NTree → List NTree
  | [] => []
  | .node nm l [] :: rest =>
      if nm ∈ keep then .node nm l [] :: shearL keep rest else shearL keep rest
  | .node nm l (c :: cs) :: rest =>
      match shearL keep (c :: cs) with
      | [] => shearL keep rest
      | [c'] => .node c'.name (l + c'.len) c'.children :: shearL keep rest
      | c₁ :: c₂ :: cs' => .node nm l (c₁ :: c₂ :: cs') :: shearL keep rest

/-- Modelled from the spec: `tree.shear(otu_ids)` on the whole tree; fails
(the InvalidTipSet condition) when a requested name is not a tip name of the
tree. -/
def shear (keep : List String) (t : NTree) : Option NTree :=
  if keep.all (fun nm => decide (nm ∈ ntipNames [t])) then
    some (.node t.name t.len (shearL keep t.children))
  else none

/-- The embedding of `TreeNode.assign_ids`: number the nodes of a forest in
postorder starting at `start`, also collecting the name-to-id association
that backs `tree.find`; returns (numbered forest, name map, next free id). -/
def assignIdsL (start : Nat) : List NTree → List PTree × List (String × Nat) × Nat
  | [] => ([], [], start)
  | .node nm l cs :: rest =>
      let rc := assignIdsL start cs
      let rr := assignIdsL (rc.2.2 + 1) rest
      (.node rc.2.2 l rc.1 :: rr.1, rc.2.1 ++ (nm, rc.2.2) :: rr.2.1, rr.2.2)

/-- The embedding of assign_ids on a whole tree: children first, the root
gets the largest id. -/
def assignIds (t : NTree) : PTree × List (String × Nat) :=
  let rc := assignIdsL 0 t.children
  (.node rc.2.2 t.len rc.1, rc.2.1 ++ [(t.name, rc.2.2)])

/-- Name lookup in the name-to-id association (`tree.find(name).id`). -/
def findIdByName (m : List (String × Nat)) (nm : String) : Option Nat :=
  (m.find? (fun e => e.1 == nm)).map Prod.snd

/-- Modelled from the spec: the CladeProfiler collaborator
`node.distance(node.root())` — the branch length along the path from the node
down from the root, the root's own length excluded; `acc` is the length
accumulated above the current forest. -/
def depthOfL (target : Nat) (acc : ℚ) : List PTree → Option ℚ
  | [] => none
  | .node i l cs :: rest =>
      if i = target then some (acc + l)
      else
        match depthOfL target (acc + l) cs with
        | some d => some d
        | none => depthOfL target acc rest

/-- The embedding of `tree.find_by_id`: the subtree rooted at the node with
the given id. -/
def findById (target : Nat) : List PTree → Option PTree
  | [] => none
  | .node i l cs :: rest =>
      if i = target then some (.node i l cs)
      else
        match findById target cs with
        | some u => some u
        | none => findById target rest

mutual

/-- Modelled from the spec: the deepest-tip half of the standard tree
diameter computation — the largest distance from a node down to a tip of its
subtree, with the realizing tip id. -/
def deepT : PTree → ℚ × Nat
  | .node i _ [] => (0, i)
  | .node _ _ (c :: cs) => deepC c cs
termination_by t => sizeOf t

/-- The deepest (edge length plus subtree depth) over a nonempty forest of
children. -/
def deepC : PTree → List PTree → ℚ × Nat
  | c, [] => ((deepT c).1 + c.len, (deepT c).2)
  | c, c' :: cs =>
      let x := ((deepT c).1 + c.len, (deepT c).2)
      let y := deepC c' cs
      if x.1 < y.1 then y else x
termination_by c cs => 1 + sizeOf c + sizeOf cs

end

/-- The best tip-to-tip path passing through the parent of the given
children: the top-two combination of child depths (distance, the two tip
ids). -/
def bestThrough : PTree → List PTree → Option (ℚ × Nat × Nat)
  | _, [] => none
  | c, c' :: cs =>
      let a := ((deepT c).1 + c.len, (deepT c).2)
      let b := deepC c' cs
      let x := (a.1 + b.1, a.2, b.2)
      match bestThrough c' cs with
      | none => some x
      | some y => some (if x.1 < y.1 then y else x)

mutual

/-- Modelled from the spec: the CladeProfiler collaborator
`TreeNode.get_max_distance` — the maximum tip-to-tip distance within the
subtree (clade width) together with the realizing pair of tip ids. -/
def diamT : PTree → ℚ × Nat × Nat
  | .node i _ [] => (0, i, i)
  | .node _ _ (c :: cs) =>
      let best := diamC c cs
      match bestThrough c cs with
      | none => best
      | some y => if best.1 < y.1 then y else best
termination_by t => sizeOf t

/-- The best subtree diameter over a nonempty forest of children. -/
def diamC : PTree → List PTree → ℚ × Nat × Nat
  | c, [] => diamT c
  | c, c' :: cs =>
      let x := diamT c
      let y := diamC c' cs
      if x.1 < y.1 then y else x
termination_by c cs => 1 + sizeOf c + sizeOf cs

end

/-- Extraction of an all-finite numpy vector (fails when any entry is
non-finite). -/
def liftFinite (l : List NpF) : Option (List ℚ) := l.mapM id

/-- The profile record assembled by `_profile_tree_node`. -/
structure HotspotProfile where
  distance_to_root : ℚ
  clade_width : ℚ
  maximally_divergent_tips : Nat × Nat
  node_address : Nat

/-- The pipeline of `hotspot` composed with `_calculate_hotspot` and
`_profile_tree_node`: shear the tree to the requested otu names, assign
postorder ids, adjust the weights for the metric, resolve otu names to node
ids, run the EMD traversal, select the node of maximal absolute differential
abundance and profile it.  The outcome `none` collects the error paths
(invalid tip set, weight-adjuster error, non-finite adjusted weights, missing
name, empty differential-abundance map). -/
def hotspot (u_counts v_counts : List ℚ) (otu_ids : List String) (tree : NTree)
    (metric : String) : Option HotspotProfile :=
  match shear otu_ids tree with
  | none => none
  | some sheared =>
      let ap := assignIds sheared
      match weight_adjuster u_counts v_counts (some ap.1) metric with
      | .error _ => none
      | .ok uv =>
          match liftFinite uv.1, liftFinite uv.2 with
          | some u', some v' =>
              match otu_ids.mapM (findIdByName ap.2) with
              | none => none
              | some ids =>
                  match selectMax (emd_unifrac_single_pair ap.1 ids u' v').2 with
                  | none => none
                  | some sel =>
                      match findById sel [ap.1] with
                      | none => none
                      | some nd =>
                          some { distance_to_root := (depthOfL sel 0 ap.1.children).getD 0
                                 clade_width := (diamT nd).1
                                 maximally_divergent_tips := (diamT nd).2
                                 node_address := sel }
          | _, _ => none

/-- Induction principle for forests of `PTree`, descending both into the
children of the first tree and into the remaining trees. -/
theorem forest_ind (P : List PTree → Prop) (h0 : P [])
    (h1 : ∀ i l cs rest, P cs → P rest → P (.node i l cs :: rest)) :
    ∀ ts : List PTree, P ts := by
  have main : ∀ n : Nat, ∀ ts : List PTree, sizeOf ts ≤ n → P ts := by
    intro n
    induction n with
    | zero =>
      intro ts h
      match ts with
      | [] => exact h0
      | c :: rest => simp at h
    | succ n ih =>
      intro ts h
      match ts with
      | [] => exact h0
      | .node i l cs :: rest =>
        have hs : sizeOf cs ≤ n ∧ sizeOf rest ≤ n := by
          simp only [List.cons.sizeOf_spec, PTree.node.sizeOf_spec] at h
          omega
        exact h1 i l cs rest (ih cs hs.1) (ih rest hs.2)
  intro ts
  exact main (sizeOf ts) ts le_rfl

/-- Pointwise-equal functions give equal mapped sums. -/
theorem map_sum_congr {l : List Nat} {f g : Nat → ℚ} (h : ∀ k ∈ l, f k = g k) :
    (l.map f).sum = (l.map g).sum := by
  induction l with
  | nil => rfl
  | cons a l ih =>
    simp only [List.map_cons, List.sum_cons]
    rw [h a (by simp), ih (fun k hk => h k (by simp [hk]))]

/-- Membership in the ids of a nonempty forest. -/
@[simp] theorem mem_idsL_cons {k i : Nat} {l : ℚ} {cs rest : List PTree} :
    k ∈ idsL (.node i l cs :: rest) ↔ k ∈ idsL cs ∨ k = i ∨ k ∈ idsL rest := by
  simp [idsL]

/-- Splitting the no-duplicates hypothesis on the ids of a nonempty forest. -/
theorem nodup_idsL_cons {i : Nat} {l : ℚ} {cs rest : List PTree}
    (h : (idsL (.node i l cs :: rest)).Nodup) :
    (idsL cs).Nodup ∧ i ∉ idsL cs ∧ (idsL rest).Nodup ∧ i ∉ idsL rest ∧
      ∀ k ∈ idsL cs, k ∉ idsL rest := by
  simp only [idsL] at h
  rw [List.nodup_append] at h
  obtain ⟨h1, h2, h3⟩ := h
  rw [List.nodup_cons] at h2
  exact ⟨h1, fun hi => h3 hi (by simp), h2.2, h2.1,
    fun k hk hk' => h3 hk (by simp [hk'])⟩

/-- The tips of a forest form a subsequence of its node ids. -/
theorem tips_sublist_ids : ∀ ts : List PTree, List.Sublist (tipsL ts) (idsL ts) := by
  intro ts
  induction ts using forest_ind with
  | h0 => simp [tipsL, idsL]
  | h1 i l cs rest ihcs ihrest =>
    cases cs with
    | nil =>
      simp only [tipsL, idsL, List.nil_append]
      exact List.Sublist.cons₂ i ihrest
    | cons c cs' =>
      simp only [tipsL, idsL]
      exact List.Sublist.append ihcs (List.Sublist.cons i ihrest)

/-- Over a duplicate-free index list, a mapped sum can be restricted to a
subsequence outside which the function vanishes. -/
theorem sum_map_sublist_eq {l₁ l₂ : List Nat} (f : Nat → ℚ) (hsub : List.Sublist l₁ l₂) :
    l₂.Nodup → (∀ k ∈ l₂, k ∉ l₁ → f k = 0) → (l₂.map f).sum = (l₁.map f).sum := by
  induction hsub with
  | slnil => intro _ _; rfl
  | @cons l₁ l₂ a h ih =>
    intro hnd h0
    have ha : a ∉ l₁ := fun hmem => (List.nodup_cons.mp hnd).1 (h.subset hmem)
    simp only [List.map_cons, List.sum_cons]
    rw [h0 a (by simp) ha,
      ih (List.nodup_cons.mp hnd).2 (fun k hk hk' => h0 k (by simp [hk]) hk'), zero_add]
  | @cons₂ l₁ l₂ a h ih =>
    intro hnd h0
    simp only [List.map_cons, List.sum_cons]
    rw [ih (List.nodup_cons.mp hnd).2]
    intro k hk hk'
    have hka : k ≠ a := fun he => (List.nodup_cons.mp hnd).1 (he ▸ hk)
    exact h0 k (by simp [hk]) (by simp [hka, hk'])

/-- The structural edge sum only depends on the seed function on the ids of
the forest. -/
theorem edgeSumL_congr : ∀ ts : List PTree, ∀ f g : Nat → ℚ,
    (∀ k ∈ idsL ts, f k = g k) → edgeSumL f ts = edgeSumL g ts := by
  intro ts
  induction ts using forest_ind with
  | h0 => intro f g _; simp [edgeSumL]
  | h1 i l cs rest ihcs ihrest =>
    intro f g h
    simp only [edgeSumL]
    rw [ihcs f g (fun k hk => h k (by simp [hk])),
      ihrest f g (fun k hk => h k (by simp [hk])),
      map_sum_congr (fun k hk => h k (by simp [hk])), h i (by simp)]

/-- When the seed function vanishes on every internal (non-tip) id and ids
are duplicate-free, every per-node subtree sum over all ids equals the sum
over tips only, so the structural edge sum equals the claimed tip-based
sum. -/
theorem edgeSumL_eq_claimSumL : ∀ ts : List PTree, ∀ f : Nat → ℚ,
    (idsL ts).Nodup → (∀ k ∈ idsL ts, k ∉ tipsL ts → f k = 0) →
    edgeSumL f ts = claimSumL f ts := by
  intro ts
  induction ts using forest_ind with
  | h0 => intro f _ _; simp [edgeSumL, claimSumL]
  | h1 i l cs rest ihcs ihrest =>
    intro f hnd h0
    obtain ⟨hndcs, hics, hndrest, hirest, hdisj⟩ := nodup_idsL_cons hnd
    have hcs0 : ∀ k ∈ idsL cs, k ∉ tipsL cs → f k = 0 := by
      intro k hk hk'
      refine h0 k (by simp [hk]) ?_
      cases cs with
      | nil => simp [idsL] at hk
      | cons c cs' =>
        simp only [tipsL, List.mem_append]
        rintro (h | h)
        · exact hk' h
        · exact hdisj k hk ((tips_sublist_ids rest).subset h)
    have hrest0 : ∀ k ∈ idsL rest, k ∉ tipsL rest → f k = 0 := by
      intro k hk hk'
      refine h0 k (by simp [hk]) ?_
      cases cs with
      | nil =>
        simp only [tipsL, List.mem_cons]
        rintro (h | h)
        · exact hirest (h ▸ hk)
        · exact hk' h
      | cons c cs' =>
        simp only [tipsL, List.mem_append]
        rintro (h | h)
        · exact hdisj k ((tips_sublist_ids (c :: cs')).subset h) hk
        · exact hk' h
    have hsum : ((idsL cs).map f).sum = ((tipsL cs).map f).sum :=
      sum_map_sublist_eq f (tips_sublist_ids cs) hndcs hcs0
    simp only [edgeSumL, claimSumL]
    rw [ihcs f hndcs hcs0, ihrest f hndrest hrest0, hsum]

/-- The structural claimed sum is the flat sum of `claimTerm` over all
subtrees. -/
theorem claimSumL_eq_map : ∀ ts : List PTree, ∀ f : Nat → ℚ,
    claimSumL f ts = ((subtreesL ts).map (claimTerm f)).sum := by
  intro ts
  induction ts using forest_ind with
  | h0 => intro f; simp [claimSumL, subtreesL]
  | h1 i l cs rest ihcs ihrest =>
    intro f
    simp only [claimSumL, subtreesL, List.map_append, List.sum_append, List.map_cons,
      List.sum_cons, claimTerm, PTree.len_node, PTree.nid_node, PTree.children_node]
    rw [ihcs, ihrest]
    ring

/-- A fold of pointwise dict insertions is supported on the initial support
together with the inserted keys. -/
theorem foldl_dinsertF_mem : ∀ ps : List (Nat × ℚ), ∀ f : Nat → ℚ, ∀ k : Nat,
    (ps.foldl (fun g kv => dinsertF g kv.1 kv.2) f) k ≠ 0 →
    f k ≠ 0 ∨ k ∈ ps.map Prod.fst := by
  intro ps
  induction ps with
  | nil => intro f k h; exact Or.inl h
  | cons e ps ih =>
    intro f k h
    rcases ih _ k h with h' | h'
    · by_cases hk : k = e.1
      · right; simp [hk]
      · left; simpa [dinsertF, hk] using h'
    · right; simp [h']

/-- The seed dict is supported on the given ids. -/
theorem dictZip_support {ids : List Nat} {vals : List ℚ} {k : Nat}
    (h : dictZip ids vals k ≠ 0) : k ∈ ids := by
  rcases foldl_dinsertF_mem (List.zip ids vals) (fun _ => 0) k h with h' | h'
  · simp at h'
  · obtain ⟨e, he, hk⟩ := List.mem_map.mp h'
    exact hk ▸ (List.of_mem_zip he).1

/-- Correctness of the postorder accumulation of `_emd_unifrac_single_pair`
over a forest whose node ids are duplicate-free and whose parent id `p` does
not occur in the forest: the distance grows by the structural edge sum of
the initial accumulator, and afterwards every forest id holds 0 while the
parent has received the whole seed mass of the forest. -/
theorem emd_run_spec : ∀ ts : List PTree, ∀ p : Nat, ∀ s : EmdState,
    (idsL ts).Nodup → p ∉ idsL ts →
    (List.foldl emdStep s (rowsList p ts)).distance
        = s.distance + edgeSumL s.psums ts ∧
    ∀ k, (List.foldl emdStep s (rowsList p ts)).psums k =
      if k ∈ idsL ts then 0
      else if k = p then s.psums p + ((idsL ts).map s.psums).sum
      else s.psums k := by
  intro ts
  induction ts using forest_ind with
  | h0 =>
    intro p s _ _
    refine ⟨by simp [rowsList, edgeSumL], ?_⟩
    intro k
    simp only [rowsList, List.foldl_nil, idsL, List.not_mem_nil, if_false,
      List.map_nil, List.sum_nil, add_zero]
    rcases eq_or_ne k p with rfl | h
    · simp
    · simp [h]
  | h1 i l cs rest ihcs ihrest =>
    intro p s hnd hp
    obtain ⟨hndcs, hics, hndrest, hirest, hdisj⟩ := nodup_idsL_cons hnd
    have hpcs : p ∉ idsL cs := fun h => hp (by simp [h])
    have hpi : p ≠ i := fun h => hp (by simp [h])
    have hprest : p ∉ idsL rest := fun h => hp (by simp [h])
    obtain ⟨hd1, hp1⟩ := ihcs i s hndcs hics
    have hval : (List.foldl emdStep s (rowsList i cs)).psums i
        = s.psums i + ((idsL cs).map s.psums).sum := by
      rw [hp1 i]
      simp [hics]
    have hstep_ps : ∀ k, (emdStep (List.foldl emdStep s (rowsList i cs)) (i, l, p)).psums k
        = if k = p
          then (List.foldl emdStep s (rowsList i cs)).psums p
            + (List.foldl emdStep s (rowsList i cs)).psums i
          else if k = i then 0 else (List.foldl emdStep s (rowsList i cs)).psums k := by
      intro k
      simp only [emdStep, dinsertF]
      rcases eq_or_ne k p with rfl | hkp
      · simp [Ne.symm hpi, hpi]
      · simp [hkp]
    have hstep_d : (emdStep (List.foldl emdStep s (rowsList i cs)) (i, l, p)).distance
        = (List.foldl emdStep s (rowsList i cs)).distance
          + l * |(List.foldl emdStep s (rowsList i cs)).psums i| := rfl
    obtain ⟨hd3, hp3⟩ := ihrest p
      (emdStep (List.foldl emdStep s (rowsList i cs)) (i, l, p)) hndrest hprest
    have hXrest : ∀ k ∈ idsL rest,
        (emdStep (List.foldl emdStep s (rowsList i cs)) (i, l, p)).psums k = s.psums k := by
      intro k hk
      have hkp : k ≠ p := fun h => hprest (h ▸ hk)
      have hki : k ≠ i := fun h => hirest (h ▸ hk)
      have hkcs : k ∉ idsL cs := fun h => hdisj k h hk
      rw [hstep_ps k, if_neg hkp, if_neg hki, hp1 k, if_neg hkcs, if_neg hki]
    have hrows : rowsList p (.node i l cs :: rest)
        = rowsList i cs ++ (i, l, p) :: rowsList p rest := by
      simp [rowsList]
    constructor
    · rw [hrows, List.foldl_append, List.foldl_cons, hd3, hstep_d, hd1, hval]
      rw [edgeSumL_congr rest _ s.psums hXrest]
      simp only [edgeSumL]
      rw [add_comm (s.psums i) _]
      ring
    · intro k
      rw [hrows, List.foldl_append, List.foldl_cons, hp3 k]
      have hsum_rest : ((idsL rest).map
          (emdStep (List.foldl emdStep s (rowsList i cs)) (i, l, p)).psums).sum
          = ((idsL rest).map s.psums).sum := map_sum_congr hXrest
      have hids : idsL (.node i l cs :: rest) = idsL cs ++ i :: idsL rest := by
        simp [idsL]
      by_cases hk1 : k ∈ idsL rest
      · rw [if_pos hk1, hids]
        rw [if_pos (by simp [hk1])]
      · rw [if_neg hk1]
        rcases eq_or_ne k p with rfl | hkp
        · rw [if_pos rfl, hids, if_neg (by simp [hpcs, hpi, hprest]), if_pos rfl]
          rw [hsum_rest, hstep_ps k, if_pos rfl, hp1 k, if_neg hpcs, if_neg hpi, hval]
          simp only [List.map_append, List.sum_append, List.map_cons, List.sum_cons]
          ring
        · rw [if_neg hkp, hstep_ps k, if_neg hkp]
          rcases eq_or_ne k i with rfl | hki
          · rw [if_pos rfl, hids, if_pos (by simp)]
          · rw [if_neg hki, hp1 k, if_neg hki]
            by_cases hkcs : k ∈ idsL cs
            · rw [if_pos hkcs, hids, if_pos (by simp [hkcs])]
            · rw [if_neg hkcs, hids, if_neg (by simp [hkcs, hki, hk1]), if_neg hkp]

/-- Claim C1: for every tree with non-negative branch lengths and every pair
of weight vectors aligned to the given tip ids, the distance returned by
`_emd_unifrac_single_pair` equals the sum, over every non-root node n, of
branch_length(n) times the absolute value of the net weight imbalance (the
sum of the seeded differences u' - v' over the tips below n, plus any weight
seeded directly at n) accumulated below the edge above n. -/
theorem emd_distance_decomposition (t : PTree) (ids : List Nat) (w1 w2 : List ℚ)
    (hpos : ∀ n ∈ subtreesL [t], 0 ≤ n.len)
    (hnd : (idsL [t]).Nodup)
    (htip : ∀ k ∈ ids, k ∈ tipsL [t]) :
    (emd_unifrac_single_pair t ids w1 w2).1 =
      ((subtreesL t.children).map
        (claimTerm (dictZip ids (List.zipWith (fun a b => a - b) w1 w2)))).sum := by
  rcases t with ⟨i, l, cs⟩
  obtain ⟨hndcs, hics, _, _, _⟩ := nodup_idsL_cons hnd
  have hsupp : ∀ k ∈ idsL cs, k ∉ tipsL cs →
      dictZip ids (List.zipWith (fun a b => a - b) w1 w2) k = 0 := by
    intro k hk hk'
    by_contra h0
    have hktips := htip k (dictZip_support h0)
    cases cs with
    | nil => simp [idsL] at hk
    | cons c cs' =>
      have he : tipsL [PTree.node i l (c :: cs')] = tipsL (c :: cs') := by
        simp [tipsL]
      rw [he] at hktips
      exact hk' hktips
  have hrun := emd_run_spec cs i
    { distance := 0, diffAbund := []
      psums := dictZip ids (List.zipWith (fun a b => a - b) w1 w2) } hndcs hics
  have hstart : (emd_unifrac_single_pair (PTree.node i l cs) ids w1 w2).1
      = (List.foldl emdStep
          { distance := 0, diffAbund := []
            psums := dictZip ids (List.zipWith (fun a b => a - b) w1 w2) }
          (rowsList i cs)).distance := rfl
  rw [hstart, hrun.1, edgeSumL_eq_claimSumL cs _ hndcs hsupp, claimSumL_eq_map]
  simp

/-- Closed instance of `emd_distance_decomposition` on the two-tip tree. -/
theorem emd_distance_decomposition_witness :
    (emd_unifrac_single_pair twoTipTree [0, 1] [1, 0] [0, 1]).1 =
      ((subtreesL twoTipTree.children).map
        (claimTerm (dictZip [0, 1] (List.zipWith (fun a b => a - b) [1, 0] [0, 1])))).sum :=
  emd_distance_decomposition twoTipTree [0, 1] [1, 0] [0, 1]
    (by norm_num [twoTipTree, subtreesL])
    (by simp [twoTipTree, idsL])
    (by simp [twoTipTree, tipsL])

/-- Swapping the operands of an elementwise difference negates it. -/
theorem zipWith_sub_swap : ∀ w1 w2 : List ℚ,
    List.zipWith (fun a b => a - b) w2 w1
      = (List.zipWith (fun a b => a - b) w1 w2).map Neg.neg := by
  intro w1
  induction w1 with
  | nil => intro w2; cases w2 <;> simp
  | cons a w1 ih =>
    intro w2
    cases w2 with
    | nil => simp
    | cons b w2 => simp [ih w2]

/-- A fold of dict insertions with negated values computes the negated
dict. -/
theorem foldl_dinsertF_neg : ∀ ps : List (Nat × ℚ), ∀ f g : Nat → ℚ,
    (∀ k, g k = -f k) → ∀ k,
    (List.foldl (fun h kv => dinsertF h kv.1 kv.2) g
        (ps.map (fun e => (e.1, -e.2)))) k
      = -((List.foldl (fun h kv => dinsertF h kv.1 kv.2) f ps) k) := by
  intro ps
  induction ps with
  | nil => intro f g hfg k; exact hfg k
  | cons e ps ih =>
    intro f g hfg k
    simp only [List.map_cons, List.foldl_cons]
    refine ih (dinsertF f e.1 e.2) (dinsertF g e.1 (-e.2)) ?_ k
    intro x
    by_cases hx : x = e.1 <;> simp [dinsertF, hx, hfg x]

/-- The seed dict of the swapped sample pair is the pointwise negation. -/
theorem dictZip_swap_neg (ids : List Nat) (w1 w2 : List ℚ) : ∀ k,
    dictZip ids (List.zipWith (fun a b => a - b) w2 w1) k
      = -(dictZip ids (List.zipWith (fun a b => a - b) w1 w2) k) := by
  intro k
  rw [zipWith_sub_swap]
  unfold dictZip
  rw [List.zip_map_right]
  have hzip : (List.zip ids (List.zipWith (fun a b => a - b) w1 w2)).map
      (Prod.map id Neg.neg)
      = (List.zip ids (List.zipWith (fun a b => a - b) w1 w2)).map
      (fun e => (e.1, -e.2)) := by
    apply List.map_congr_left
    intro e _
    rfl
  rw [hzip]
  exact foldl_dinsertF_neg _ _ _ (fun _ => by simp) k

/-- Negating the inserted value of a dict insertion negates the stored
association list entrywise. -/
theorem dictSet_neg (A : List (Nat × ℚ)) (k : Nat) (v : ℚ) :
    dictSet (A.map (fun e => (e.1, -e.2))) k (-v)
      = (dictSet A k v).map (fun e => (e.1, -e.2)) := by
  unfold dictSet
  have hany : (A.map (fun e => (e.1, -e.2))).any (fun e => e.1 == k)
      = A.any (fun e => e.1 == k) := by
    rw [List.any_map]
    rfl
  rw [hany]
  by_cases h : A.any (fun e => e.1 == k) = true
  · rw [if_pos h, if_pos h, List.map_map, List.map_map]
    apply List.map_congr_left
    intro e _
    by_cases he : e.1 == k
    · simp only [Function.comp_apply, he, if_pos]
    · simp only [Function.comp_apply, he]
      simp at he
      simp [he]
  · rw [if_neg h, if_neg h, List.map_append]
    rfl

/-- Running the traversal from a negated state yields the same distance, the
entrywise-negated differential-abundance dict, and the negated
accumulator. -/
theorem emd_run_neg : ∀ rows : List Row, ∀ s s' : EmdState,
    s'.distance = s.distance →
    s'.diffAbund = s.diffAbund.map (fun e => (e.1, -e.2)) →
    (∀ k, s'.psums k = -(s.psums k)) →
    (List.foldl emdStep s' rows).distance = (List.foldl emdStep s rows).distance ∧
    (List.foldl emdStep s' rows).diffAbund
      = (List.foldl emdStep s rows).diffAbund.map (fun e => (e.1, -e.2)) ∧
    ∀ k, (List.foldl emdStep s' rows).psums k = -((List.foldl emdStep s rows).psums k) := by
  intro rows
  induction rows with
  | nil => intro s s' h1 h2 h3; exact ⟨h1, h2, h3⟩
  | cons r rows ih =>
    intro s s' h1 h2 h3
    simp only [List.foldl_cons]
    refine ih (emdStep s r) (emdStep s' r) ?_ ?_ ?_
    · simp only [emdStep, h1, h3 r.1, abs_neg]
    · simp only [emdStep, h3 r.1, neg_eq_zero, h2]
      by_cases hv : s.psums r.1 = 0
      · simp [hv]
      · rw [if_neg hv, if_neg hv, ← dictSet_neg, mul_neg]
    · intro k
      simp only [emdStep, dinsertF, h3 r.1]
      by_cases hk : k = r.2.2
      · simp only [hk, if_pos]
        by_cases hp : r.2.2 = r.1 <;> simp [hp, h3 r.2.2]
        · ring
      · simp only [hk, if_neg, if_false]
        by_cases hp : k = r.1 <;> simp [hp, h3 k]

/-- Claim C3: for every tree and every pair of weight vectors, swapping the
two weight-vector arguments of `_emd_unifrac_single_pair` leaves the
returned distance unchanged and negates every entry of the returned
differential-abundance map (the same keys in the same order, each value
negated). -/
theorem emd_swap_antisymmetry (t : PTree) (ids : List Nat) (w1 w2 : List ℚ) :
    (emd_unifrac_single_pair t ids w2 w1).1 = (emd_unifrac_single_pair t ids w1 w2).1 ∧
    (emd_unifrac_single_pair t ids w2 w1).2
      = (emd_unifrac_single_pair t ids w1 w2).2.map (fun e => (e.1, -e.2)) := by
  have h := emd_run_neg (rowsList t.nid t.children)
    { distance := 0, diffAbund := []
      psums := dictZip ids (List.zipWith (fun a b => a - b) w1 w2) }
    { distance := 0, diffAbund := []
      psums := dictZip ids (List.zipWith (fun a b => a - b) w2 w1) }
    rfl (by simp) (dictZip_swap_neg ids w1 w2)
  exact ⟨h.1, h.2.1⟩

/-- The elementwise difference of a vector with itself is all zeros. -/
theorem zipWith_sub_self : ∀ w : List ℚ, ∀ v ∈ List.zipWith (fun a b => a - b) w w, v = 0 := by
  intro w
  induction w with
  | nil => intro v hv; simp at hv
  | cons a w ih =>
    intro v hv
    simp only [List.zipWith_cons_cons, List.mem_cons] at hv
    rcases hv with rfl | hv
    · simp
    · exact ih v hv

/-- Folding dict insertions of zero values over the zero function stays
zero. -/
theorem foldl_dinsertF_zero : ∀ ps : List (Nat × ℚ), ∀ f : Nat → ℚ,
    (∀ k, f k = 0) → (∀ e ∈ ps, e.2 = 0) →
    ∀ k, (ps.foldl (fun g kv => dinsertF g kv.1 kv.2) f) k = 0 := by
  intro ps
  induction ps with
  | nil => intro f hf _ k; exact hf k
  | cons e ps ih =>
    intro f hf hv k
    simp only [List.foldl_cons]
    refine ih _ ?_ (fun x hx => hv x (by simp [hx])) k
    intro x
    by_cases hx : x = e.1 <;> simp [dinsertF, hx, hv e (by simp), hf x]

/-- A seed dict built from all-zero values is the zero function. -/
theorem dictZip_zero_vals (ids : List Nat) (vals : List ℚ)
    (h : ∀ v ∈ vals, v = 0) : ∀ k, dictZip ids vals k = 0 := by
  intro k
  refine foldl_dinsertF_zero _ _ (fun _ => rfl) ?_ k
  intro e he
  exact h e.2 (List.of_mem_zip he).2

/-- Running the traversal from an all-zero accumulator changes nothing: all
popped values are zero. -/
theorem emd_run_zero : ∀ rows : List Row, ∀ s : EmdState, (∀ k, s.psums k = 0) →
    (List.foldl emdStep s rows).distance = s.distance ∧
    (List.foldl emdStep s rows).diffAbund = s.diffAbund ∧
    ∀ k, (List.foldl emdStep s rows).psums k = 0 := by
  intro rows
  induction rows with
  | nil => intro s h; exact ⟨rfl, rfl, h⟩
  | cons r rows ih =>
    intro s h
    simp only [List.foldl_cons]
    have hzero : ∀ k, (emdStep s r).psums k = 0 := by
      intro k
      simp only [emdStep, dinsertF]
      split_ifs <;> simp [h]
    obtain ⟨h1, h2, h3⟩ := ih (emdStep s r) hzero
    refine ⟨h1.trans (by simp [emdStep, h r.1]), h2.trans (by simp [emdStep, h r.1]), h3⟩

/-- Claim C4 (behaviour of the code at the failing input): when the two
weight vectors are elementwise equal, `_emd_unifrac_single_pair` returns
distance 0 and an empty differential-abundance map, and the selection loop
of `_calculate_hotspot` then never assigns `max_change_node_id` — the
selection outcome is `none`, i.e. the following `tree.find_by_id` raises an
`UnboundLocalError`; no `NoHotspot` sentinel is produced. -/
theorem identical_samples_empty_diff (t : PTree) (ids : List Nat) (w : List ℚ) :
    emd_unifrac_single_pair t ids w w = (0, []) ∧
    calculate_hotspot_id t ids w w = none := by
  have hzero : ∀ k, dictZip ids (List.zipWith (fun a b => a - b) w w) k = 0 :=
    dictZip_zero_vals ids _ (zipWith_sub_self w)
  have h := emd_run_zero (rowsList t.nid t.children)
    { distance := 0, diffAbund := []
      psums := dictZip ids (List.zipWith (fun a b => a - b) w w) } hzero
  have h1 : (emd_unifrac_single_pair t ids w w).1 = 0 := h.1
  have h2 : (emd_unifrac_single_pair t ids w w).2 = [] := h.2.1
  refine ⟨?_, ?_⟩
  · rw [emd_unifrac_single_pair, Prod.mk.injEq]
    exact ⟨h1, h2⟩
  · rw [calculate_hotspot_id, h2]
    rfl

/-- Full evaluation of the EMD pair on the paper example. -/
theorem emd_paper_eval :
    emd_unifrac_single_pair paperTree [0, 1, 3, 4, 5]
      [0, 1/2, 1/2, 0, 0] [1/3, 0, 0, 1/3, 1/3] =
    (7/30, [(0, -1/30), (1, 1/20), (2, 1/30), (3, 1/20), (4, -1/30), (5, -1/30)]) := by
  simp [emd_unifrac_single_pair, emdFinalState, paperTree, rowsList, dictZip, dinsertF,
    emdStep, dictSet, List.zipWith, List.zip, List.zipWithAll]
  norm_num [abs_of_pos]

/-- Claim C2: on the tree ((1:0.1,2:0.1)5:0.2,(3:0.1,4:0.1)6:0.2)root; with
postorder ids, tip ids [0,1,3,4,5] for the names [1,2,3,4,6], and the weight
vectors u = [0,1/2,1/2,0,0] and v = [1/3,0,0,1/3,1/3], the distance returned
by `_emd_unifrac_single_pair` is exactly 7/30 (approximately 0.2333333). -/
theorem emd_paper_distance :
    (emd_unifrac_single_pair paperTree [0, 1, 3, 4, 5]
      [0, 1/2, 1/2, 0, 0] [1/3, 0, 0, 1/3, 1/3]).1 = 7/30 := by
  rw [emd_paper_eval]

/-- On the paper example itself the branch-length-weighted entries of the
differential-abundance map do not balance: the positive entries sum to 2/15
while the negated sum of the negative entries is 1/10. -/
theorem emd_diff_entries_unbalanced :
    ¬ ((((emd_unifrac_single_pair paperTree [0, 1, 3, 4, 5]
            [0, 1/2, 1/2, 0, 0] [1/3, 0, 0, 1/3, 1/3]).2.map Prod.snd).filter
            (fun x => decide (0 < x))).sum
        = -((((emd_unifrac_single_pair paperTree [0, 1, 3, 4, 5]
            [0, 1/2, 1/2, 0, 0] [1/3, 0, 0, 1/3, 1/3]).2.map Prod.snd).filter
            (fun x => decide (x < 0))).sum)) := by
  rw [emd_paper_eval]
  norm_num [List.filter_cons]

/-- Specification of the strict-comparison maximum scan: either no entry
beats the initial bound and the accumulator is returned unchanged, or the
fold returns the first entry whose absolute value attains the overall
maximum (every strictly earlier entry is strictly smaller, so a later tie
never replaces the current maximum). -/
theorem selFold_spec : ∀ l : List (Nat × ℚ), ∀ b : ℚ, ∀ o : Option Nat,
    ((∀ e ∈ l, |e.2| ≤ b) ∧ l.foldl selStep (b, o) = (b, o)) ∨
    (∃ pre a post, l = pre ++ a :: post ∧ b < |a.2| ∧
      (∀ e ∈ l, |e.2| ≤ |a.2|) ∧ (∀ e ∈ pre, |e.2| < |a.2|) ∧
      l.foldl selStep (b, o) = (|a.2|, some a.1)) := by
  intro l
  induction l with
  | nil => intro b o; left; exact ⟨by simp, rfl⟩
  | cons e l ih =>
    intro b o
    by_cases hb : b < |e.2|
    · have hstep : selStep (b, o) e = (|e.2|, some e.1) := by simp [selStep, hb]
      rcases ih |e.2| (some e.1) with ⟨hall, heq⟩ | ⟨pre, a, post, hsplit, hlt, hmax, hpre, heq⟩
      · right
        refine ⟨[], e, l, by simp, hb, ?_, by simp, ?_⟩
        · intro x hx
          rcases List.mem_cons.mp hx with rfl | hx
          · exact le_refl _
          · exact hall x hx
        · rw [List.foldl_cons, hstep]
          exact heq
      · right
        refine ⟨e :: pre, a, post, by simp [hsplit], lt_trans hb hlt, ?_, ?_, ?_⟩
        · intro x hx
          rcases List.mem_cons.mp hx with rfl | hx
          · exact le_of_lt hlt
          · exact hmax x hx
        · intro x hx
          rcases List.mem_cons.mp hx with rfl | hx
          · exact hlt
          · exact hpre x hx
        · rw [List.foldl_cons, hstep]
          exact heq
    · have hstep : selStep (b, o) e = (b, o) := by simp [selStep, hb]
      rcases ih b o with ⟨hall, heq⟩ | ⟨pre, a, post, hsplit, hlt, hmax, hpre, heq⟩
      · left
        refine ⟨?_, ?_⟩
        · intro x hx
          rcases List.mem_cons.mp hx with rfl | hx
          · exact not_lt.mp hb
          · exact hall x hx
        · rw [List.foldl_cons, hstep]
          exact heq
      · right
        refine ⟨e :: pre, a, post, by simp [hsplit], hlt, ?_, ?_, ?_⟩
        · intro x hx
          rcases List.mem_cons.mp hx with rfl | hx
          · exact le_of_lt (lt_of_le_of_lt (not_lt.mp hb) hlt)
          · exact hmax x hx
        · intro x hx
          rcases List.mem_cons.mp hx with rfl | hx
          · exact lt_of_le_of_lt (not_lt.mp hb) hlt
          · exact hpre x hx
        · rw [List.foldl_cons, hstep]
          exact heq

/-- The ids of the traversal rows are exactly the postorder node ids. -/
theorem rowsList_map_fst : ∀ ts : List PTree, ∀ p : Nat,
    (rowsList p ts).map (fun r => r.1) = idsL ts := by
  intro ts
  induction ts using forest_ind with
  | h0 => intro p; simp [rowsList, idsL]
  | h1 i l cs rest ihcs ihrest => intro p; simp [rowsList, idsL, ihcs, ihrest]

/-- The keys of the differential-abundance dict extend the initial keys with
a subsequence of the traversed row ids, in traversal order. -/
theorem diff_keys_sublist : ∀ rows : List Row, ∀ s : EmdState,
    List.Sublist ((List.foldl emdStep s rows).diffAbund.map Prod.fst)
      (s.diffAbund.map Prod.fst ++ rows.map (fun r => r.1)) := by
  intro rows
  induction rows with
  | nil => intro s; simp
  | cons r rows ih =>
    intro s
    simp only [List.foldl_cons, List.map_cons]
    have hmono : List.Sublist (s.diffAbund.map Prod.fst ++ rows.map (fun r => r.1))
        (s.diffAbund.map Prod.fst ++ r.1 :: rows.map (fun r => r.1)) :=
      List.Sublist.append (List.Sublist.refl _)
        (List.Sublist.cons r.1 (List.Sublist.refl _))
    have h := ih (emdStep s r)
    by_cases hv : s.psums r.1 = 0
    · have hd : (emdStep s r).diffAbund = s.diffAbund := by simp [emdStep, hv]
      rw [hd] at h
      exact h.trans hmono
    · have hd : (emdStep s r).diffAbund = dictSet s.diffAbund r.1 (r.2.1 * s.psums r.1) := by
        simp [emdStep, hv]
      rw [hd] at h
      by_cases hany : s.diffAbund.any (fun e => e.1 == r.1) = true
      · have hk : (dictSet s.diffAbund r.1 (r.2.1 * s.psums r.1)).map Prod.fst
            = s.diffAbund.map Prod.fst := by
          rw [dictSet, if_pos hany, List.map_map]
          apply List.map_congr_left
          intro e _
          by_cases he : e.1 == r.1
          · have he' : e.1 = r.1 := by simpa using he
            simp [Function.comp_apply, he, he']
          · have he' : ¬ e.1 = r.1 := by simpa using he
            simp [Function.comp_apply, he, he']
        rw [hk] at h
        exact h.trans hmono
      · have hk : (dictSet s.diffAbund r.1 (r.2.1 * s.psums r.1)).map Prod.fst
            = s.diffAbund.map Prod.fst ++ [r.1] := by
          rw [dictSet, if_neg hany, List.map_append]
          rfl
        rw [hk, List.append_assoc] at h
        simpa using h

/-- Claim C9: when the differential-abundance map is nonempty, the keys of
the map follow the postorder traversal order, and `_calculate_hotspot`
selects the first entry of maximal absolute value in that iteration order:
every entry is bounded by the selected one and every strictly earlier entry
is strictly smaller, so on a tie the earliest entry wins because the
comparison is strict. -/
theorem hotspot_selector_first_max (t : PTree) (ids : List Nat) (w1 w2 : List ℚ)
    (hne : (emd_unifrac_single_pair t ids w1 w2).2 ≠ []) :
    List.Sublist ((emd_unifrac_single_pair t ids w1 w2).2.map Prod.fst)
      (idsL t.children) ∧
    ∃ pre a post,
      (emd_unifrac_single_pair t ids w1 w2).2 = pre ++ a :: post ∧
      calculate_hotspot_id t ids w1 w2 = some a.1 ∧
      (∀ e ∈ (emd_unifrac_single_pair t ids w1 w2).2, |e.2| ≤ |a.2|) ∧
      (∀ e ∈ pre, |e.2| < |a.2|) := by
  constructor
  · have h := diff_keys_sublist (rowsList t.nid t.children)
      { distance := 0, diffAbund := []
        psums := dictZip ids (List.zipWith (fun a b => a - b) w1 w2) }
    rw [rowsList_map_fst] at h
    simpa using h
  · rcases selFold_spec (emd_unifrac_single_pair t ids w1 w2).2 (-1) none with
      ⟨hall, _⟩ | ⟨pre, a, post, hs, _, hmax, hpre, heq⟩
    · rcases List.exists_mem_of_ne_nil _ hne with ⟨e, he⟩
      have h1 := hall e he
      have h0 : (0 : ℚ) ≤ |e.2| := abs_nonneg _
      linarith
    · refine ⟨pre, a, post, hs, ?_, hmax, hpre⟩
      rw [calculate_hotspot_id, selectMax, heq]

/-- Full evaluation of the EMD pair on the two-tip tree with opposite unit
masses: a tie between the two entries. -/
theorem emd_twoTip_eval :
    emd_unifrac_single_pair twoTipTree [0, 1] [1, 0] [0, 1]
      = (2, [(0, 1), (1, -1)]) := by
  simp [emd_unifrac_single_pair, emdFinalState, twoTipTree, rowsList, dictZip, dinsertF,
    emdStep, dictSet, List.zipWith, List.zip, List.zipWithAll]
  norm_num [abs_of_pos]

/-- Closed instance of `hotspot_selector_first_max` on a tied two-entry
map. -/
theorem hotspot_selector_first_max_witness :
    List.Sublist ((emd_unifrac_single_pair twoTipTree [0, 1] [1, 0] [0, 1]).2.map Prod.fst)
      (idsL twoTipTree.children) ∧
    ∃ pre a post,
      (emd_unifrac_single_pair twoTipTree [0, 1] [1, 0] [0, 1]).2 = pre ++ a :: post ∧
      calculate_hotspot_id twoTipTree [0, 1] [1, 0] [0, 1] = some a.1 ∧
      (∀ e ∈ (emd_unifrac_single_pair twoTipTree [0, 1] [1, 0] [0, 1]).2, |e.2| ≤ |a.2|) ∧
      (∀ e ∈ pre, |e.2| < |a.2|) :=
  hotspot_selector_first_max twoTipTree [0, 1] [1, 0] [0, 1]
    (by rw [emd_twoTip_eval]; simp)

/-- A fold of dict insertions does not change keys that are never
inserted. -/
theorem foldl_dinsertF_notmem : ∀ ps : List (Nat × ℚ), ∀ f : Nat → ℚ, ∀ k : Nat,
    k ∉ ps.map Prod.fst → (ps.foldl (fun g kv => dinsertF g kv.1 kv.2) f) k = f k := by
  intro ps
  induction ps with
  | nil => intro f k _; rfl
  | cons e ps ih =>
    intro f k hk
    simp only [List.map_cons, List.mem_cons, not_or] at hk
    simp only [List.foldl_cons]
    rw [ih _ k hk.2]
    simp [dinsertF, hk.1]

/-- A fold of dict insertions reads a key only through the initial value at
that key. -/
theorem foldl_dinsertF_congr_at : ∀ ps : List (Nat × ℚ), ∀ f g : Nat → ℚ, ∀ k : Nat,
    f k = g k →
    (ps.foldl (fun h kv => dinsertF h kv.1 kv.2) f) k
      = (ps.foldl (fun h kv => dinsertF h kv.1 kv.2) g) k := by
  intro ps
  induction ps with
  | nil => intro f g k h; exact h
  | cons e ps ih =>
    intro f g k h
    simp only [List.foldl_cons]
    refine ih _ _ k ?_
    by_cases hk : k = e.1 <;> simp [dinsertF, hk, h]

/-- Reading the seed dict back over its own duplicate-free key list recovers
the total seeded mass. -/
theorem map_dictZip_sum : ∀ ids : List Nat, ∀ vals : List ℚ,
    ids.Nodup → vals.length = ids.length →
    (ids.map (dictZip ids vals)).sum = vals.sum := by
  intro ids
  induction ids with
  | nil =>
    intro vals _ h
    have hv : vals = [] := List.length_eq_zero.mp h
    simp [hv]
  | cons a ids ih =>
    intro vals hnd hlen
    cases vals with
    | nil => simp at hlen
    | cons v vals =>
      have ha : a ∉ ids := (List.nodup_cons.mp hnd).1
      have hnd' : ids.Nodup := (List.nodup_cons.mp hnd).2
      have hlen' : vals.length = ids.length := by simpa using hlen
      have hzipfst : a ∉ (List.zip ids vals).map Prod.fst := by
        intro hmem
        obtain ⟨e, he, hk⟩ := List.mem_map.mp hmem
        exact ha (hk ▸ (List.of_mem_zip he).1)
      have hzc : dictZip (a :: ids) (v :: vals) = fun k =>
          (List.zip ids vals).foldl (fun g kv => dinsertF g kv.1 kv.2)
            (dinsertF (fun _ => 0) a v) k := by
        rfl
      have hat : dictZip (a :: ids) (v :: vals) a = v := by
        rw [hzc]
        show (List.zip ids vals).foldl (fun g kv => dinsertF g kv.1 kv.2)
            (dinsertF (fun _ => 0) a v) a = v
        rw [foldl_dinsertF_notmem _ _ a hzipfst]
        simp [dinsertF]
      have hrest : ∀ k ∈ ids, dictZip (a :: ids) (v :: vals) k = dictZip ids vals k := by
        intro k hk
        have hka : k ≠ a := fun he => ha (he ▸ hk)
        rw [hzc]
        exact foldl_dinsertF_congr_at _ _ _ k (by simp [dinsertF, hka])
      simp only [List.map_cons, List.sum_cons, hat]
      rw [List.map_congr_left hrest, ih vals hnd' hlen']

/-- The sum of an elementwise difference of equally long vectors. -/
theorem sum_zipWith_sub : ∀ w1 w2 : List ℚ, w1.length = w2.length →
    (List.zipWith (fun a b => a - b) w1 w2).sum = w1.sum - w2.sum := by
  intro w1
  induction w1 with
  | nil =>
    intro w2 h
    have hv : w2 = [] := List.length_eq_zero.mp h.symm
    simp [hv]
  | cons a w1 ih =>
    intro w2 h
    cases w2 with
    | nil => simp at h
    | cons b w2 =>
      simp only [List.zipWith_cons_cons, List.sum_cons]
      rw [ih w2 (by simpa using h)]
      ring

/-- A mapped sum can be restricted to the support of the function. -/
theorem sum_map_filter_support (f : Nat → ℚ) : ∀ l : List Nat,
    (l.map f).sum = ((l.filter (fun k => decide (f k ≠ 0))).map f).sum := by
  intro l
  induction l with
  | nil => rfl
  | cons a l ih =>
    by_cases h : f a = 0
    · simp [List.filter_cons, h, ih]
    · simp [List.filter_cons, h, ih]

/-- Two duplicate-free lists that both enumerate the support of a function
give the same mapped sum. -/
theorem sum_map_eq_of_support_iff {l₁ l₂ : List Nat} (f : Nat → ℚ)
    (h1 : l₁.Nodup) (h2 : l₂.Nodup)
    (hmem : ∀ k, f k ≠ 0 → k ∈ l₁ ∧ k ∈ l₂) :
    (l₁.map f).sum = (l₂.map f).sum := by
  rw [sum_map_filter_support f l₁, sum_map_filter_support f l₂]
  have hperm : (l₁.filter (fun k => decide (f k ≠ 0))).Perm
      (l₂.filter (fun k => decide (f k ≠ 0))) := by
    rw [List.perm_ext_iff_of_nodup (h1.filter _) (h2.filter _)]
    intro k
    simp only [List.mem_filter, decide_eq_true_eq]
    constructor
    · rintro ⟨_, hk⟩; exact ⟨(hmem k hk).2, hk⟩
    · rintro ⟨_, hk⟩; exact ⟨(hmem k hk).1, hk⟩
  exact (hperm.map f).sum_eq

/-- Claim C5 (amended): flow conservation holds for the transported mass,
not for the branch-length-weighted map entries: for weight vectors of equal
total mass aligned without repetition to tip ids of a tree with
duplicate-free node ids, the traversal propagates exactly zero net mass into
the root — the root's accumulator entry is 0 when the loop finishes. -/
theorem emd_root_mass_conservation (t : PTree) (ids : List Nat) (w1 w2 : List ℚ)
    (hnd : (idsL [t]).Nodup) (htip : ∀ k ∈ ids, k ∈ tipsL [t]) (hids : ids.Nodup)
    (h1 : w1.length = ids.length) (h2 : w2.length = ids.length)
    (hsum : w1.sum = w2.sum) :
    (emdFinalState t ids w1 w2).psums t.nid = 0 := by
  rcases t with ⟨i, l, cs⟩
  obtain ⟨hndcs, hics, _, _, _⟩ := nodup_idsL_cons hnd
  have hrun := emd_run_spec cs i
    { distance := 0, diffAbund := []
      psums := dictZip ids (List.zipWith (fun a b => a - b) w1 w2) } hndcs hics
  have hkey : (List.foldl emdStep
      { distance := 0, diffAbund := []
        psums := dictZip ids (List.zipWith (fun a b => a - b) w1 w2) }
      (rowsList i cs)).psums i
      = dictZip ids (List.zipWith (fun a b => a - b) w1 w2) i
        + ((idsL cs).map (dictZip ids (List.zipWith (fun a b => a - b) w1 w2))).sum := by
    have h := hrun.2 i
    rw [if_neg hics, if_pos rfl] at h
    exact h
  have hsupp : ∀ k, dictZip ids (List.zipWith (fun a b => a - b) w1 w2) k ≠ 0 →
      k ∈ idsL [PTree.node i l cs] ∧ k ∈ ids := by
    intro k hk
    have hk1 : k ∈ ids := dictZip_support hk
    exact ⟨(tips_sublist_ids [PTree.node i l cs]).subset (htip k hk1), hk1⟩
  have hall : ((idsL [PTree.node i l cs]).map
        (dictZip ids (List.zipWith (fun a b => a - b) w1 w2))).sum
      = (ids.map (dictZip ids (List.zipWith (fun a b => a - b) w1 w2))).sum :=
    sum_map_eq_of_support_iff _ hnd hids hsupp
  have hsplit : ((idsL [PTree.node i l cs]).map
        (dictZip ids (List.zipWith (fun a b => a - b) w1 w2))).sum
      = ((idsL cs).map (dictZip ids (List.zipWith (fun a b => a - b) w1 w2))).sum
        + dictZip ids (List.zipWith (fun a b => a - b) w1 w2) i := by
    simp [idsL]
  have hlen : (List.zipWith (fun a b => a - b) w1 w2).length = ids.length := by
    rw [List.length_zipWith, h1, h2, min_self]
  have hzipsum : (ids.map (dictZip ids (List.zipWith (fun a b => a - b) w1 w2))).sum
      = w1.sum - w2.sum := by
    rw [map_dictZip_sum ids _ hids hlen]
    exact sum_zipWith_sub w1 w2 (h1.trans h2.symm)
  show (List.foldl emdStep
      { distance := 0, diffAbund := []
        psums := dictZip ids (List.zipWith (fun a b => a - b) w1 w2) }
      (rowsList i cs)).psums i = 0
  rw [hkey]
  have hfin : ((idsL cs).map (dictZip ids (List.zipWith (fun a b => a - b) w1 w2))).sum
      + dictZip ids (List.zipWith (fun a b => a - b) w1 w2) i = 0 := by
    rw [← hsplit, hall, hzipsum, hsum]
    ring
  linarith [hfin]

/-- Closed instance of `emd_root_mass_conservation` on the two-tip tree. -/
theorem emd_root_mass_conservation_witness :
    (emdFinalState twoTipTree [0, 1] [1/2, 1/2] [1/4, 3/4]).psums twoTipTree.nid = 0 :=
  emd_root_mass_conservation twoTipTree [0, 1] [1/2, 1/2] [1/4, 3/4]
    (by simp [twoTipTree, idsL])
    (by simp [twoTipTree, tipsL])
    (by simp)
    (by simp)
    (by simp)
    (by norm_num)

/-- With a zero-sum first vector, the weighted branch of `_weight_adjuster`
still returns a value (with non-finite entries where the division by the
zero sum occurred): no error is raised. -/
theorem weighted_zero_sum_returns_value :
    weight_adjuster [0] [1] none "weighted_unifrac" = .ok ([none], [some 1]) := by
  rw [weight_adjuster, if_neg (by decide), if_pos rfl]
  norm_num [npDiv]

/-- Claim C6 (amended): with method weighted_unifrac, `_weight_adjuster`
returns each input vector divided elementwise by that vector's scalar sum;
when a sum is zero it does not raise — the numpy division emits a
RuntimeWarning and yields non-finite entries, and a value is still
returned for every input. -/
theorem weighted_adjuster_division (s1 s2 : List ℚ) (tr : Option PTree)
    (h1 : s1.sum ≠ 0) (h2 : s2.sum ≠ 0) :
    weight_adjuster s1 s2 tr "weighted_unifrac"
      = .ok (s1.map (fun x => some (x / s1.sum)), s2.map (fun x => some (x / s2.sum)))
    ∧ ∀ z1 z2 : List ℚ, ∃ r, weight_adjuster z1 z2 tr "weighted_unifrac" = .ok r := by
  constructor
  · rw [weight_adjuster.eq_def, if_neg (by decide), if_pos rfl]
    have hmap : ∀ z : List ℚ, z.sum ≠ 0 →
        z.map (fun x => npDiv x z.sum) = z.map (fun x => some (x / z.sum)) := by
      intro z hz
      apply List.map_congr_left
      intro x _
      simp [npDiv, hz]
    rw [hmap s1 h1, hmap s2 h2]
  · intro z1 z2
    exact ⟨_, by rw [weight_adjuster.eq_def, if_neg (by decide), if_pos rfl]⟩

/-- Closed instance of `weighted_adjuster_division` on nonzero-sum
vectors. -/
theorem weighted_adjuster_division_witness :
    (weight_adjuster [1, 3] [2] none "weighted_unifrac"
      = .ok (([1, 3] : List ℚ).map (fun x => some (x / ([1, 3] : List ℚ).sum)),
             ([2] : List ℚ).map (fun x => some (x / ([2] : List ℚ).sum))))
    ∧ ∀ z1 z2 : List ℚ, ∃ r, weight_adjuster z1 z2 none "weighted_unifrac" = .ok r :=
  weighted_adjuster_division [1, 3] [2] none (by norm_num) (by norm_num)

/-- Claim C7: with method unweighted_unifrac and a tree supplied,
`_weight_adjuster` returns the presence/absence vectors divided by the
tree's total branch length L (entry 1/L exactly where the input entry is
strictly positive, 0 otherwise), and when the tree argument is absent it
fails with the MissingParameter error instead of returning a value. -/
theorem unweighted_adjuster_spec (s1 s2 : List ℚ) (t : PTree)
    (hL : totalBranchLength t ≠ 0) :
    weight_adjuster s1 s2 (some t) "unweighted_unifrac"
      = .ok (s1.map (fun x => some (if 0 < x then 1 / totalBranchLength t else 0)),
             s2.map (fun x => some (if 0 < x then 1 / totalBranchLength t else 0)))
    ∧ weight_adjuster s1 s2 none "unweighted_unifrac"
      = .error "Unweighted weight adjustment requires a tree." := by
  constructor
  · rw [weight_adjuster, if_pos rfl]
    have hmap : ∀ z : List ℚ,
        z.map (fun x => npDiv (if 0 < x then 1 else 0) (totalBranchLength t))
          = z.map (fun x => some (if 0 < x then 1 / totalBranchLength t else 0)) := by
      intro z
      apply List.map_congr_left
      intro x _
      by_cases h : 0 < x <;> simp [npDiv, hL, h]
    rw [hmap s1, hmap s2]
  · rw [weight_adjuster, if_pos rfl]

/-- Closed instance of `unweighted_adjuster_spec` on the two-tip tree. -/
theorem unweighted_adjuster_spec_witness :
    (weight_adjuster [2, 0] [-1] (some twoTipTree) "unweighted_unifrac"
      = .ok (([2, 0] : List ℚ).map
               (fun x => some (if 0 < x then 1 / totalBranchLength twoTipTree else 0)),
             ([-1] : List ℚ).map
               (fun x => some (if 0 < x then 1 / totalBranchLength twoTipTree else 0))))
    ∧ weight_adjuster [2, 0] [-1] none "unweighted_unifrac"
      = .error "Unweighted weight adjustment requires a tree." :=
  unweighted_adjuster_spec [2, 0] [-1] twoTipTree
    (by norm_num [totalBranchLength, twoTipTree, subtreesL])

/-- The alias `weighted` is not recognized anywhere: it is absent from
`available_metrics` (so the `hotspot_pairs` gate rejects it) and
`_weight_adjuster` rejects it with the method-not-recognized error. -/
theorem alias_weighted_rejected :
    "weighted" ∉ available_metrics ∧
    weight_adjuster [1] [1] none "weighted"
      = .error ("method: " ++ "weighted" ++ " not recognized.") := by
  constructor
  · decide
  · rw [weight_adjuster, if_neg (by decide), if_neg (by decide)]

/-- Claim C8 (amended): the recognized metric values are exactly the two
full names weighted_unifrac and unweighted_unifrac; the short aliases
weighted and unweighted are not in `available_metrics` and are rejected by
`_weight_adjuster` like every other unrecognized string, with an error
message that includes the offending value. -/
theorem metric_recognition (m : String) (s1 s2 : List ℚ) (tr : Option PTree)
    (hm : m ∉ available_metrics) :
    weight_adjuster s1 s2 tr m = .error ("method: " ++ m ++ " not recognized.")
    ∧ "weighted_unifrac" ∈ available_metrics
    ∧ "unweighted_unifrac" ∈ available_metrics
    ∧ "weighted" ∉ available_metrics
    ∧ "unweighted" ∉ available_metrics := by
  have hm1 : m ≠ "unweighted_unifrac" := by
    intro h
    exact hm (by rw [h]; simp [available_metrics])
  have hm2 : m ≠ "weighted_unifrac" := by
    intro h
    exact hm (by rw [h]; simp [available_metrics])
  refine ⟨?_, by simp [available_metrics], by simp [available_metrics], by decide, by decide⟩
  rw [weight_adjuster.eq_def, if_neg hm1, if_neg hm2]

/-- Closed instance of `metric_recognition` at the alias `weighted`. -/
theorem metric_recognition_witness :
    weight_adjuster [1] [1] none "weighted"
        = .error ("method: " ++ "weighted" ++ " not recognized.")
    ∧ "weighted_unifrac" ∈ available_metrics
    ∧ "unweighted_unifrac" ∈ available_metrics
    ∧ "weighted" ∉ available_metrics
    ∧ "unweighted" ∉ available_metrics :=
  metric_recognition "weighted" [1] [1] none (by decide)

/-- Claim C10: the hotspot pipeline is deterministic — two calls with equal
count vectors, otu ids, tree, and metric return equal profile records (same
node_address, distance_to_root, clade_width, maximally_divergent_tips); the
pipeline is a pure function of these five inputs and reads no other
state. -/
theorem hotspot_deterministic (u v : List ℚ) (ids : List String) (t : NTree) (m : String)
    (u' v' : List ℚ) (ids' : List String) (t' : NTree) (m' : String)
    (hu : u = u') (hv : v = v') (hi : ids = ids') (ht : t = t') (hm : m = m') :
    hotspot u v ids t m = hotspot u' v' ids' t' m' := by
  subst hu
  subst hv
  subst hi
  subst ht
  subst hm
  rfl

/-- Closed instance of `hotspot_deterministic`. -/
theorem hotspot_deterministic_witness :
    hotspot [1] [1] ["A"] (NTree.node "A" 1 []) "weighted_unifrac"
      = hotspot [1] [1] ["A"] (NTree.node "A" 1 []) "weighted_unifrac" :=
  hotspot_deterministic [1] [1] ["A"] (NTree.node "A" 1 []) "weighted_unifrac"
    [1] [1] ["A"] (NTree.node "A" 1 []) "weighted_unifrac" rfl rfl rfl rfl rfl
